import Mathlib

set_option maxHeartbeats 1000000

/-! Shallow embedding of the Socs-Calendar-Parser repository
(src/models.rs, src/parser.rs, src/lib.rs, src/client.rs).

Rust strings are modelled as lists of characters; chrono `NaiveDate` and
`NaiveTime` as explicit structures; fallible Rust functions return
`Except`.  The embedding keeps the source's names and control structure.
-/

deriving instance DecidableEq for Except

/-- Rust string values (`&str` / `String`), modelled as their character
sequence.  Rust compares strings by UTF-8 bytes, which orders the same way
as comparing the code-point sequences. -/
abbrev Str := List Char

/-- Whitespace test used by Rust `str::trim` and by chrono's numeric
scanners (both use Unicode white space; the inputs at hand only involve
ASCII whitespace, which `Char.isWhitespace` covers). -/
def isWs (c : Char) : Bool := c.isWhitespace

/-- Model of Rust `str::trim`: drop whitespace at both ends. -/
def trim (s : Str) : Str := ((s.dropWhile isWs).reverse.dropWhile isWs).reverse

/-- Model of Rust `str::split(sep)` collected into a vector: split at every
occurrence of `sep`, keeping empty pieces; the empty string yields one
empty piece. -/
def splitOnChar (sep : Char) : Str → List Str
  | [] => [[]]
  | c :: r =>
    if c = sep then [] :: splitOnChar sep r
    else
      match splitOnChar sep r with
      | h :: t => (c :: h) :: t
      | [] => [[c]]

/-- ASCII lower-casing of one character, as Rust `u8::to_ascii_lowercase`. -/
def toLowerAscii (c : Char) : Char :=
  if 'A' ≤ c && c ≤ 'Z' then Char.ofNat (c.toNat + 32) else c

/-- Model of Rust `str::eq_ignore_ascii_case`. -/
def eqIgnoreAsciiCase (a b : Str) : Bool :=
  a.map toLowerAscii == b.map toLowerAscii

/-- Numeric value of a digit string (most significant digit first). -/
def digitsToNat (ds : Str) : Nat := List.foldl (fun a c => a * 10 + (c.toNat - 48)) 0 ds

/-- Model of Rust `str::parse::<u32>()`: an optional leading `+`, then one
or more ASCII digits, with the value fitting in 32 bits. -/
def parseU32 (s : Str) : Option Nat :=
  let digits : Str := match s with
    | '+' :: r => r
    | r => r
  if digits.isEmpty then none
  else if digits.all Char.isDigit then
    let v := digitsToNat digits
    if v < 4294967296 then some v else none
  else none

/-- Model of Rust `str::parse::<i32>()`: an optional sign, then one or
more ASCII digits, with the value in the `i32` range. -/
def parseI32 (s : Str) : Option Int :=
  let signDigits : Bool × Str := match s with
    | '+' :: r => (false, r)
    | '-' :: r => (true, r)
    | r => (false, r)
  let neg := signDigits.1
  let digits := signDigits.2
  if digits.isEmpty then none
  else if digits.all Char.isDigit then
    let v : Int := (digitsToNat digits : Nat)
    if neg then if v ≤ 2147483648 then some (-v) else none
    else if v ≤ 2147483647 then some v else none
  else none

/-- Model of `chrono::NaiveDate`: a calendar date.  chrono stores year and
day-of-year packed in an `i32` and its derived `Ord` is chronological,
i.e. lexicographic on (year, month, day) for valid dates. -/
structure NaiveDate where
  year : Int
  month : Nat
  day : Nat
deriving DecidableEq

/-- Leap-year rule used by chrono (proleptic Gregorian). -/
def isLeapYear (y : Int) : Bool := y % 4 == 0 && (y % 100 != 0 || y % 400 == 0)

/-- Number of days of a month (month given 1-12). -/
def daysInMonth (y : Int) (m : Nat) : Nat :=
  match m with
  | 1 => 31 | 3 => 31 | 5 => 31 | 7 => 31 | 8 => 31 | 10 => 31 | 12 => 31
  | 4 => 30 | 6 => 30 | 9 => 30 | 11 => 30
  | 2 => if isLeapYear y then 29 else 28
  | _ => 0

/-- Model of `chrono::NaiveDate::from_ymd_opt`: `some` exactly on valid
calendar dates (chrono also bounds the year to its packed representation,
`MIN_YEAR = i32::MIN >> 13` to `MAX_YEAR = i32::MAX >> 13`). -/
def from_ymd_opt (year : Int) (month day : Nat) : Option NaiveDate :=
  if 1 ≤ month && month ≤ 12 && 1 ≤ day && day ≤ daysInMonth year month
      && -262144 ≤ year && year ≤ 262143 then
    some ⟨year, month, day⟩
  else none

/-- Model of `chrono::NaiveTime` at the resolution this program uses:
times are only ever produced by parsing `"HH:MM"`, so seconds and
fractions are always zero.  chrono's derived `Ord` (on seconds-of-day,
fraction) is lexicographic on (hour, minute) for such values. -/
structure NaiveTime where
  hour : Nat
  minute : Nat
deriving DecidableEq

/-- Model of `time.overflowing_add_signed(Duration::hours(1)).0`:
chrono adds on seconds-of-day modulo 86400, so the hour wraps modulo 24
and the date component is untouched. -/
def addHourWrap (t : NaiveTime) : NaiveTime := ⟨(t.hour + 1) % 24, t.minute⟩

/-- The `EventTime` enum of src/models.rs. -/
inductive EventTime where
  | allDay (date : NaiveDate)
  | specific (date : NaiveDate) (time : NaiveTime)
deriving DecidableEq

/-- The `EventTime::date` accessor of src/models.rs. -/
def EventTime.date : EventTime → NaiveDate
  | .allDay d => d
  | .specific d _ => d

/-- The `EventTime::is_all_day` accessor of src/models.rs. -/
def EventTime.is_all_day : EventTime → Bool
  | .allDay _ => true
  | .specific _ _ => false

/-- Rust `Ord::cmp` on integers. -/
def intCmp (a b : Int) : Ordering :=
  if a < b then .lt else if b < a then .gt else .eq

/-- Rust `Ord::cmp` on natural numbers. -/
def natCmp (a b : Nat) : Ordering :=
  if a < b then .lt else if b < a then .gt else .eq

/-- chrono `NaiveDate`'s derived `Ord`: chronological, i.e. lexicographic
on (year, month, day) for valid dates. -/
def dateCmp (a b : NaiveDate) : Ordering :=
  (intCmp a.year b.year).then ((natCmp a.month b.month).then (natCmp a.day b.day))

/-- chrono `NaiveTime`'s derived `Ord`, restricted to the whole-minute
times this program builds: lexicographic on (hour, minute). -/
def timeCmp (a b : NaiveTime) : Ordering :=
  (natCmp a.hour b.hour).then (natCmp a.minute b.minute)

/-- The derived `Ord` of `EventTime` in src/models.rs: Rust's derive
compares the variant (its declaration order: `AllDay` before `Specific`)
first, and the payload lexicographically only within one variant. -/
def eventTimeCmp : EventTime → EventTime → Ordering
  | .allDay d1, .allDay d2 => dateCmp d1 d2
  | .allDay _, .specific _ _ => .lt
  | .specific _ _, .allDay _ => .gt
  | .specific d1 t1, .specific d2 t2 => (dateCmp d1 d2).then (timeCmp t1 t2)

/-- Strict date comparison `a < b`, from `dateCmp`. -/
def dateLtb (a b : NaiveDate) : Bool := dateCmp a b == Ordering.lt

/-- Date comparison `a >= b` as used by `last_event_date >= end_date`. -/
def dateGeb (a b : NaiveDate) : Bool := !(dateCmp a b == Ordering.lt)

/-- The error cases of the parser (src/parser.rs builds `anyhow` errors;
only their category matters here).  `dateFormat` stands for any of the
errors raised inside `parse_date` ("Invalid date format" / "Invalid
day/month/year" / "Invalid date"), `timeFormat` for the failure of
`parse_event_time`, and `indexPanic` models the Rust panic that indexing
`parts[0]`/`parts[1]`/`parts[2]` out of bounds would raise. -/
inductive ParseError where
  | dateFormat
  | timeFormat
  | indexPanic
deriving DecidableEq

/-- The `CalendarEventXml` record of src/models.rs (the raw, loosely
typed form deserialized from the feed XML). -/
structure CalendarEventXml where
  event_id : Str
  start_date : Str
  end_date : Str
  start_time : Str
  end_time : Option Str
  title : Str
  description : Option Str
  location : Str
  category : Str
deriving DecidableEq

/-- The `CalendarEvent` record of src/models.rs (`end` is a Lean keyword,
hence the field name `end_`). -/
structure CalendarEvent where
  event_id : Str
  title : Str
  description : Option Str
  location : Str
  categories : List Str
  start : EventTime
  end_ : EventTime
deriving DecidableEq

/-- The `parse_date` function of src/parser.rs: split on `/`, check for
exactly three parts, parse day/month/year, validate via `from_ymd_opt`.
The element accesses `parts[0]`, `parts[1]`, `parts[2]` are modelled by
`List.get?`, with the impossible out-of-bounds panic mapped to
`ParseError.indexPanic`. -/
def parse_date (date_str : Str) : Except ParseError NaiveDate :=
  let parts := splitOnChar '/' date_str
  if parts.length ≠ 3 then .error .dateFormat
  else
    match parts.get? 0, parts.get? 1, parts.get? 2 with
    | some p0, some p1, some p2 =>
      match parseU32 p0, parseU32 p1, parseI32 p2 with
      | some day, some month, some year =>
        match from_ymd_opt year month day with
        | some d => .ok d
        | none => .error .dateFormat
      | _, _, _ => .error .dateFormat
    | _, _, _ => .error .indexPanic

/-- Greedy scan of at most `max` leading ASCII digits, as chrono's
`scan::number` does (which limits its window to `max` bytes and stops at
the first non-digit). Returns the digits read and the rest of the input. -/
def takeDigits : Nat → Str → Str × Str
  | 0, s => ([], s)
  | _ + 1, [] => ([], [])
  | n + 1, c :: r =>
    if c.isDigit then
      let p := takeDigits n r
      (c :: p.1, p.2)
    else ([], c :: r)

/-- Model of `chrono::NaiveTime::parse_from_str(time_str, "%H:%M")`.
chrono parses each numeric item by skipping leading whitespace and then
reading one or two digits (parsing is lenient about zero padding), the
literal `:` must match exactly, the whole input must be consumed, and the
resulting hour/minute must form a valid time of day. -/
def parseFromStrHM (s : Str) : Option NaiveTime :=
  let s1 := s.dropWhile isWs
  let h := takeDigits 2 s1
  if h.1.isEmpty then none
  else
    match h.2 with
    | ':' :: rest =>
      let rest2 := rest.dropWhile isWs
      let m := takeDigits 2 rest2
      if m.1.isEmpty then none
      else if m.2.isEmpty then
        let hv := digitsToNat h.1
        let mv := digitsToNat m.1
        if hv ≤ 23 && mv ≤ 59 then some ⟨hv, mv⟩ else none
      else none
    | _ => none

/-- The `parse_event_time` function of src/parser.rs: trim, accept
"all day" (ASCII case-insensitive) or the empty string as all-day,
otherwise parse `"HH:MM"`. -/
def parse_event_time (date : NaiveDate) (time_str : Str) : Except ParseError EventTime :=
  let t := trim time_str
  if eqIgnoreAsciiCase t "all day".toList || t.isEmpty then .ok (.allDay date)
  else
    match parseFromStrHM t with
    | some time => .ok (.specific date time)
    | none => .error .timeFormat

/-- The end-time derivation of `parse_event` in src/parser.rs (the `let
end = ...` expression): a present, non-blank end-time string is parsed
against the end date; a present-but-blank one defaults to all-day on the
end date (all-day start) or start-time-plus-one-hour on the end date
(specific start); an absent one defaults to all-day on the end date
(all-day start) or `start.clone()` (specific start). -/
def derive_end (end_time : Option Str) (end_date : NaiveDate) (start : EventTime) :
    Except ParseError EventTime :=
  match end_time with
  | some end_time_str =>
    if !(trim end_time_str).isEmpty then
      parse_event_time end_date end_time_str
    else
      .ok (if start.is_all_day then .allDay end_date
           else
             match start with
             | .specific _ time => .specific end_date (addHourWrap time)
             | .allDay _ => .allDay end_date)
  | none =>
    .ok (if start.is_all_day then .allDay end_date else start)

/-- The `parse_event` function of src/parser.rs: parse both dates, the
start time, derive the end, split the category field on commas, trim the
pieces and drop the empty ones, and assemble the `CalendarEvent`. -/
def parse_event (event : CalendarEventXml) : Except ParseError CalendarEvent :=
  match parse_date event.start_date with
  | .error e => .error e
  | .ok start_date =>
    match parse_date event.end_date with
    | .error e => .error e
    | .ok end_date =>
      match parse_event_time start_date event.start_time with
      | .error e => .error e
      | .ok start =>
        match derive_end event.end_time end_date start with
        | .error e => .error e
        | .ok end_ =>
          .ok { event_id := event.event_id
                title := event.title
                description := event.description
                location := event.location
                categories :=
                  ((splitOnChar ',' event.category).map trim).filter (fun s => !s.isEmpty)
                start := start
                end_ := end_ }

/-- Lexicographic `a <= b` on strings, as Rust `Ord` on `String`
(byte-wise, which coincides with code-point-wise comparison). -/
def strLe : Str → Str → Bool
  | [], _ => true
  | _ :: _, [] => false
  | a :: as, b :: bs => if a = b then strLe as bs else decide (a < b)

/-- Insertion of one element into a sorted list, keeping it after every
element it does not have to precede (so the sort below is stable, like
Rust `slice::sort_by`). -/
def orderedInsert (le : α → α → Bool) (a : α) : List α → List α
  | [] => [a]
  | b :: l => if le a b then a :: b :: l else b :: orderedInsert le a l

/-- Stable sort, modelling Rust `Vec::sort_by` (a stable merge sort;
stability and the sorted order are all that matters here). -/
def insertionSort (le : α → α → Bool) : List α → List α
  | [] => []
  | a :: l => orderedInsert le a (insertionSort le l)

/-- Model of Rust `Vec::dedup_by(same_bucket)`: drop every element that
`same_bucket` relates to the last retained element before it. -/
def dedupAux (same : α → α → Bool) (prev : α) : List α → List α
  | [] => []
  | b :: l => if same b prev then dedupAux same prev l else b :: dedupAux same b l

/-- Model of Rust `Vec::dedup_by` (entry point: the first element is
always retained). -/
def dedup_by (same : α → α → Bool) : List α → List α
  | [] => []
  | a :: l => a :: dedupAux same a l

/-- The comparator of `all_events.sort_by(|a, b| a.event_id.cmp(&b.event_id))`
turned into a `<=` test. -/
def leById (a b : CalendarEvent) : Bool := strLe a.event_id b.event_id

/-- The comparator of `all_events.sort_by(|a, b| a.start.cmp(&b.start))`
turned into a `<=` test (`cmp` not `Greater`). -/
def leByStart (a b : CalendarEvent) : Bool := !(eventTimeCmp a.start b.start == Ordering.gt)

/-- The post-loop finalization of `fetch_events_recursive` in src/lib.rs:
stable sort by `event_id`, dedup consecutive equal ids, stable sort by
`start`. -/
def finalize (all_events : List CalendarEvent) : List CalendarEvent :=
  let sorted := insertionSort leById all_events
  let deduped := dedup_by (fun a b => a.event_id == b.event_id) sorted
  insertionSort leByStart deduped

/-- The loop of `fetch_events_recursive` in src/lib.rs.  The composition
of `fetch_calendar` and `parse_calendar_xml` is modelled as `feed`, a
function from the moving `current_start` to the parsed batch (`base_url`
and `end_date` are fixed for the whole call, and the claims under study
concern feeds whose fetch and parse succeed).  The `Nat` argument is
fuel: `none` means the loop did not finish within that many iterations
(the Rust loop has no such bound; the theorems below exhibit sufficient
fuel).  The unreachable `context("Failed to get last date")` error is
also mapped to `none`. -/
def fetch_events_recursive (feed : NaiveDate → List CalendarEvent) (end_date : NaiveDate) :
    Nat → NaiveDate → List CalendarEvent → Option (List CalendarEvent)
  | 0, _, _ => none
  | fuel + 1, current_start, all_events =>
    let events := feed current_start
    if events.isEmpty then some (finalize all_events)
    else
      match events.getLast? with
      | none => none
      | some lastEv =>
        let last_event_date := lastEv.start.date
        let all_events := all_events ++ events
        if dateGeb last_event_date end_date then some (finalize all_events)
        else fetch_events_recursive feed end_date fuel last_event_date all_events

/-- The sequence of batches the loop of `fetch_events_recursive` fetches
(same control flow as the loop, recording each non-empty batch instead of
accumulating). -/
def fetchBatches (feed : NaiveDate → List CalendarEvent) (end_date : NaiveDate) :
    Nat → NaiveDate → Option (List (List CalendarEvent))
  | 0, _ => none
  | fuel + 1, current_start =>
    let events := feed current_start
    if events.isEmpty then some []
    else
      match events.getLast? with
      | none => none
      | some lastEv =>
        if dateGeb lastEv.start.date end_date then some [events]
        else (fetchBatches feed end_date fuel lastEv.start.date).map (events :: ·)

/-- Valid bounds for the month and day fields of a date (every date the
parser produces satisfies this, by `from_ymd_opt`). -/
def dateValid (d : NaiveDate) : Prop :=
  1 ≤ d.month ∧ d.month ≤ 12 ∧ 1 ≤ d.day ∧ d.day ≤ 31

instance (d : NaiveDate) : Decidable (dateValid d) := by
  unfold dateValid; infer_instance

/-- Monotone embedding of valid dates into the integers, used as a
termination measure for the pagination loop. -/
def dateKey (d : NaiveDate) : Int :=
  d.year * 372 + ((d.month : Int) - 1) * 31 + ((d.day : Int) - 1)

/-- Raw record with a specific start time and an entirely absent end-time
field (used for C2). -/
def rec2 : CalendarEventXml :=
  { event_id := "1".toList
    start_date := "10/12/2025".toList
    end_date := "11/12/2025".toList
    start_time := "08:00".toList
    end_time := none
    title := "T".toList
    description := none
    location := "L".toList
    category := "".toList }

/-- The event the code produces for `rec2`. -/
def ev2 : CalendarEvent :=
  { event_id := "1".toList
    title := "T".toList
    description := none
    location := "L".toList
    categories := []
    start := .specific ⟨2025, 12, 10⟩ ⟨8, 0⟩
    end_ := .specific ⟨2025, 12, 10⟩ ⟨8, 0⟩ }

/-- Raw record with a specific start time 23:30 and a blank end-time
field (used for C3). -/
def rec3 : CalendarEventXml :=
  { event_id := "3".toList
    start_date := "10/12/2025".toList
    end_date := "10/12/2025".toList
    start_time := "23:30".toList
    end_time := some " ".toList
    title := "T".toList
    description := none
    location := "L".toList
    category := "".toList }

/-- The event the code produces for `rec3`. -/
def ev3 : CalendarEvent :=
  { event_id := "3".toList
    title := "T".toList
    description := none
    location := "L".toList
    categories := []
    start := .specific ⟨2025, 12, 10⟩ ⟨23, 30⟩
    end_ := .specific ⟨2025, 12, 10⟩ ⟨0, 30⟩ }

/-- Raw all-day record whose category field is "A, B ,, C" (used for C8). -/
def rec8 : CalendarEventXml :=
  { event_id := "8".toList
    start_date := "10/12/2025".toList
    end_date := "10/12/2025".toList
    start_time := "All Day".toList
    end_time := none
    title := "T".toList
    description := none
    location := "L".toList
    category := "A, B ,, C".toList }

/-- The event the code produces for `rec8`. -/
def ev8 : CalendarEvent :=
  { event_id := "8".toList
    title := "T".toList
    description := none
    location := "L".toList
    categories := ["A".toList, "B".toList, "C".toList]
    start := .allDay ⟨2025, 12, 10⟩
    end_ := .allDay ⟨2025, 12, 10⟩ }

/-- One synthetic all-day event per date, used by the C6 witness. -/
def wEvent (d : NaiveDate) : CalendarEvent :=
  { event_id := "w".toList
    title := []
    description := none
    location := []
    categories := []
    start := .allDay d
    end_ := .allDay d }

/-- A feed that always answers with a single event on January 1 of the
next year (so its last start date strictly increases per call). -/
def wFeed (d : NaiveDate) : List CalendarEvent := [wEvent ⟨d.year + 1, 1, 1⟩]

/-! Characterizations of the primitive comparators. -/

theorem then_eq_lt (o₁ o₂ : Ordering) :
    o₁.then o₂ = .lt ↔ o₁ = .lt ∨ (o₁ = .eq ∧ o₂ = .lt) := by
  cases o₁ <;> simp [Ordering.then]

theorem then_eq_eq (o₁ o₂ : Ordering) :
    o₁.then o₂ = .eq ↔ o₁ = .eq ∧ o₂ = .eq := by
  cases o₁ <;> simp [Ordering.then]

theorem then_swap (o₁ o₂ : Ordering) :
    (o₁.then o₂).swap = o₁.swap.then o₂.swap := by
  cases o₁ <;> rfl

theorem intCmp_eq_lt (a b : Int) : intCmp a b = .lt ↔ a < b := by
  unfold intCmp; split_ifs <;> simp_all <;> omega

theorem intCmp_eq_eq (a b : Int) : intCmp a b = .eq ↔ a = b := by
  unfold intCmp; split_ifs <;> simp_all <;> omega

theorem intCmp_swap (a b : Int) : (intCmp a b).swap = intCmp b a := by
  unfold intCmp; split_ifs <;> simp_all [Ordering.swap] <;> omega

theorem natCmp_eq_lt (a b : Nat) : natCmp a b = .lt ↔ a < b := by
  unfold natCmp; split_ifs <;> simp_all <;> omega

theorem natCmp_eq_eq (a b : Nat) : natCmp a b = .eq ↔ a = b := by
  unfold natCmp; split_ifs <;> simp_all <;> omega

theorem natCmp_swap (a b : Nat) : (natCmp a b).swap = natCmp b a := by
  unfold natCmp; split_ifs <;> simp_all [Ordering.swap] <;> omega

theorem dateCmp_eq_lt (a b : NaiveDate) :
    dateCmp a b = .lt ↔
      a.year < b.year ∨ (a.year = b.year ∧
        (a.month < b.month ∨ (a.month = b.month ∧ a.day < b.day))) := by
  simp [dateCmp, then_eq_lt, then_eq_eq, intCmp_eq_lt, intCmp_eq_eq,
    natCmp_eq_lt, natCmp_eq_eq]

theorem dateCmp_eq_eq (a b : NaiveDate) : dateCmp a b = .eq ↔ a = b := by
  simp only [dateCmp, then_eq_eq, intCmp_eq_eq, natCmp_eq_eq]
  constructor
  · rintro ⟨h1, h2, h3⟩; cases a; cases b; simp_all
  · rintro rfl; exact ⟨rfl, rfl, rfl⟩

theorem dateCmp_swap (a b : NaiveDate) : (dateCmp a b).swap = dateCmp b a := by
  simp [dateCmp, then_swap, intCmp_swap, natCmp_swap]

theorem timeCmp_eq_eq (a b : NaiveTime) : timeCmp a b = .eq ↔ a = b := by
  simp only [timeCmp, then_eq_eq, natCmp_eq_eq]
  constructor
  · rintro ⟨h1, h2⟩; cases a; cases b; simp_all
  · rintro rfl; exact ⟨rfl, rfl⟩

theorem timeCmp_swap (a b : NaiveTime) : (timeCmp a b).swap = timeCmp b a := by
  simp [timeCmp, then_swap, natCmp_swap]

theorem eventTimeCmp_swap (a b : EventTime) :
    (eventTimeCmp a b).swap = eventTimeCmp b a := by
  cases a <;> cases b <;>
    simp [eventTimeCmp, then_swap, dateCmp_swap, timeCmp_swap] <;> rfl

theorem eventTimeCmp_eq_eq (a b : EventTime) : eventTimeCmp a b = .eq ↔ a = b := by
  cases a <;> cases b <;>
    simp [eventTimeCmp, then_eq_eq, dateCmp_eq_eq, timeCmp_eq_eq]

/-- C1, counterexample: the date of the specific-time value (2020-01-01)
precedes the date of the all-day value (2030-01-01), yet the derived
`EventTime` order puts the all-day value first — the two values are NOT
ordered by their dates, because the derived `Ord` compares the variant
before any date. -/
theorem c1_order_counterexample :
    dateLtb ⟨2020, 1, 1⟩ ⟨2030, 1, 1⟩ = true ∧
    eventTimeCmp (.allDay ⟨2030, 1, 1⟩) (.specific ⟨2020, 1, 1⟩ ⟨8, 0⟩) = .lt := by
  decide

/-- C1, amended: the total order used to sort the final output compares
primarily by whether the value carries a time component — every all-day
value precedes every specific-time value regardless of the dates — and
only within one variant by date (then time).  The order is well-defined
and total for sorting: swapping the arguments swaps the outcome, and two
values compare equal exactly when they are equal. -/
theorem c1_event_time_order_amended :
    (∀ d1 d2 t2, eventTimeCmp (.allDay d1) (.specific d2 t2) = .lt) ∧
    (∀ d1 t1 d2, eventTimeCmp (.specific d1 t1) (.allDay d2) = .gt) ∧
    (∀ d1 d2, eventTimeCmp (.allDay d1) (.allDay d2) = dateCmp d1 d2) ∧
    (∀ d1 t1 d2 t2, eventTimeCmp (.specific d1 t1) (.specific d2 t2) =
      (dateCmp d1 d2).then (timeCmp t1 t2)) ∧
    (∀ a b, (eventTimeCmp a b).swap = eventTimeCmp b a) ∧
    (∀ a b, eventTimeCmp a b = .eq ↔ a = b) := by
  refine ⟨fun _ _ _ => rfl, fun _ _ _ => rfl, fun _ _ => rfl, fun _ _ _ _ => rfl,
    eventTimeCmp_swap, eventTimeCmp_eq_eq⟩

/-! Structure of `parse_date`. -/

theorem parse_date_ne3 (s : Str) (h : (splitOnChar '/' s).length ≠ 3) :
    parse_date s = .error .dateFormat := by
  unfold parse_date; rw [if_pos h]

theorem parse_date_eq3 (p0 p1 p2 : Str) (s : Str) (h : splitOnChar '/' s = [p0, p1, p2]) :
    parse_date s =
      (match parseU32 p0, parseU32 p1, parseI32 p2 with
      | some day, some month, some year =>
        (match from_ymd_opt year month day with
        | some d => .ok d
        | none => .error .dateFormat)
      | _, _, _ => .error .dateFormat) := by
  unfold parse_date
  rw [h]
  simp

theorem parse_date_total (s : Str) :
    (∃ d, parse_date s = .ok d) ∨ parse_date s = .error .dateFormat := by
  by_cases h3 : (splitOnChar '/' s).length = 3
  · obtain ⟨p0, p1, p2, he⟩ := List.length_eq_three.mp h3
    rw [parse_date_eq3 p0 p1 p2 s he]
    rcases parseU32 p0 with _ | day <;> rcases parseU32 p1 with _ | month <;>
      rcases parseI32 p2 with _ | year <;> simp
    rcases from_ymd_opt year month day with _ | d <;> simp
  · exact Or.inr (parse_date_ne3 s h3)

theorem parse_date_eq_ok (s : Str) (d : NaiveDate) :
    parse_date s = .ok d ↔
      ∃ p0 p1 p2 day month year,
        splitOnChar '/' s = [p0, p1, p2] ∧ parseU32 p0 = some day ∧
        parseU32 p1 = some month ∧ parseI32 p2 = some year ∧
        from_ymd_opt year month day = some d := by
  constructor
  · intro h
    by_cases h3 : (splitOnChar '/' s).length = 3
    · obtain ⟨p0, p1, p2, he⟩ := List.length_eq_three.mp h3
      rw [parse_date_eq3 p0 p1 p2 s he] at h
      rcases hd : parseU32 p0 with _ | day <;> rw [hd] at h <;>
        rcases hm : parseU32 p1 with _ | month <;> rw [hm] at h <;>
        rcases hy : parseI32 p2 with _ | year <;> rw [hy] at h <;>
        simp only [] at h <;> try exact absurd h (by simp)
      rcases hv : from_ymd_opt year month day with _ | d' <;> rw [hv] at h
      · exact absurd h (by simp)
      · obtain rfl : d' = d := by injection h
        exact ⟨p0, p1, p2, day, month, year, he, hd, hm, hy, hv⟩
    · rw [parse_date_ne3 s h3] at h
      exact absurd h (by simp)
  · rintro ⟨p0, p1, p2, day, month, year, hs, h1, h2, h3, h4⟩
    rw [parse_date_eq3 p0 p1 p2 s hs, h1, h2, h3]
    simp [h4]

/-- C5: date parsing succeeds exactly when the field splits on `/` into
exactly three parts that parse as numbers (day, month, year in that
order) forming a valid calendar date, and returns that date; otherwise it
fails with the date-format error.  In particular "10/12/2025" parses to
day 10, month 12, year 2025, while "32/01/2025" and "10/13/2025" fail. -/
theorem c5_parse_date_spec :
    (∀ s d, parse_date s = .ok d ↔
      ∃ p0 p1 p2 day month year,
        splitOnChar '/' s = [p0, p1, p2] ∧ parseU32 p0 = some day ∧
        parseU32 p1 = some month ∧ parseI32 p2 = some year ∧
        from_ymd_opt year month day = some d) ∧
    (∀ s, (∃ d, parse_date s = .ok d) ∨ parse_date s = .error .dateFormat) ∧
    parse_date "10/12/2025".toList = .ok ⟨2025, 12, 10⟩ ∧
    parse_date "32/01/2025".toList = .error .dateFormat ∧
    parse_date "10/13/2025".toList = .error .dateFormat :=
  ⟨parse_date_eq_ok, parse_date_total, by decide, by decide, by decide⟩

/-- C10: `parse_date` is total and the out-of-bounds accesses are
unreachable: on no input does it reach the `indexPanic` outcome that
models indexing `parts[0]`/`parts[1]`/`parts[2]` out of bounds, because
the exactly-three-parts length check guards them. -/
theorem c10_parse_date_no_panic (s : Str) : parse_date s ≠ .error .indexPanic := by
  rcases parse_date_total s with ⟨d, h⟩ | h <;> simp [h]

/-- C10, witness: the panic branch is not taken on a concrete input. -/
theorem c10_parse_date_no_panic_witness :
    parse_date "10/12".toList ≠ .error .indexPanic :=
  c10_parse_date_no_panic "10/12".toList

/-! Structure of `parse_event`. -/

theorem parse_event_eq_ok (event : CalendarEventXml) (out : CalendarEvent) :
    parse_event event = .ok out ↔
      ∃ start_date end_date start end_,
        parse_date event.start_date = .ok start_date ∧
        parse_date event.end_date = .ok end_date ∧
        parse_event_time start_date event.start_time = .ok start ∧
        derive_end event.end_time end_date start = .ok end_ ∧
        out = { event_id := event.event_id
                title := event.title
                description := event.description
                location := event.location
                categories :=
                  ((splitOnChar ',' event.category).map trim).filter (fun s => !s.isEmpty)
                start := start
                end_ := end_ } := by
  unfold parse_event
  rcases h1 : parse_date event.start_date with e1 | sd <;> simp only [h1]
  · simp
  rcases h2 : parse_date event.end_date with e2 | ed <;> simp only [h2]
  · simp
  rcases h3 : parse_event_time sd event.start_time with e3 | st <;> simp only [h3]
  · simp [h3]
  rcases h4 : derive_end event.end_time ed st with e4 | en <;> simp only [h4]
  · simp [h3, h4]
  · simp [h3, h4, eq_comm]

/-- C2, counterexample: for a record with specific start time 08:00 on
start date 10/12/2025, end date 11/12/2025, and an entirely absent
end-time field, the code derives `end = start` (08:00 on the START date),
not 09:00 on the end date as the claim (absent treated identically to
blank, so start plus one hour on the end date) requires. -/
theorem c2_absent_end_counterexample :
    rec2.end_time = none ∧
    parse_event rec2 = .ok ev2 ∧
    ev2.start = .specific ⟨2025, 12, 10⟩ ⟨8, 0⟩ ∧
    ev2.end_ = .specific ⟨2025, 12, 10⟩ ⟨8, 0⟩ ∧
    ev2.end_ ≠ .specific ⟨2025, 12, 11⟩ ⟨9, 0⟩ := by
  decide

/-- C2, amended: an entirely absent end-time field is NOT treated like a
present-but-blank one when the start is a specific time: with a specific
start time and an absent end-time field the resulting end equals the
start itself (start date and start time, no one-hour shift, not the end
date); absent and blank agree only when the start is all-day. -/
theorem c2_absent_end_amended (e : CalendarEventXml) (ev : CalendarEvent)
    (d : NaiveDate) (t : NaiveTime)
    (hok : parse_event e = .ok ev) (habs : e.end_time = none)
    (hst : ev.start = .specific d t) :
    ev.end_ = .specific d t := by
  obtain ⟨sd, ed, st, en, h1, h2, h3, h4, rfl⟩ := (parse_event_eq_ok e ev).mp hok
  simp only at hst
  subst hst
  rw [habs] at h4
  unfold derive_end at h4
  simp [EventTime.is_all_day] at h4
  simp [h4]

/-- C2, witness for the amended claim, at the concrete record `rec2`. -/
theorem c2_absent_end_amended_witness :
    ev2.end_ = .specific ⟨2025, 12, 10⟩ ⟨8, 0⟩ :=
  c2_absent_end_amended rec2 ev2 ⟨2025, 12, 10⟩ ⟨8, 0⟩ (by decide) (by decide) (by decide)

/-- C3: for a record whose start is a specific time and whose end-time
string is present but blank after trimming, the derived end is a specific
time on the end date equal to the start time plus one hour, where the
addition wraps past midnight without advancing the date component
(`addHourWrap ⟨23, 30⟩ = ⟨0, 30⟩`). -/
theorem c3_blank_end_start_plus_hour :
    (∀ (e : CalendarEventXml) (ev : CalendarEvent) (s : Str) (d ed : NaiveDate)
        (t : NaiveTime),
      parse_event e = .ok ev → e.end_time = some s → trim s = [] →
      ev.start = .specific d t → parse_date e.end_date = .ok ed →
      ev.end_ = .specific ed (addHourWrap t)) ∧
    addHourWrap ⟨23, 30⟩ = ⟨0, 30⟩ := by
  constructor
  · intro e ev s d ed t hok hsome hblank hst hed
    obtain ⟨sd, ed', st, en, h1, h2, h3, h4, rfl⟩ := (parse_event_eq_ok e ev).mp hok
    obtain rfl : ed' = ed := by
      have h := h2.symm.trans hed
      injection h
    simp only at hst
    subst hst
    rw [hsome] at h4
    unfold derive_end at h4
    simp [hblank, EventTime.is_all_day] at h4
    simp [h4]
  · decide

/-- C3, witness: start 23:30 with a blank end-time string yields end
00:30 on the end date, which here even makes `end < start` in the
`EventTime` order (the deliberate wraparound-without-date-rollover). -/
theorem c3_blank_end_start_plus_hour_witness :
    ev3.end_ = .specific ⟨2025, 12, 10⟩ (addHourWrap ⟨23, 30⟩) ∧
    eventTimeCmp ev3.end_ ev3.start = .lt :=
  ⟨c3_blank_end_start_plus_hour.1 rec3 ev3 " ".toList ⟨2025, 12, 10⟩ ⟨2025, 12, 10⟩
      ⟨23, 30⟩ (by decide) (by decide) (by decide) (by decide) (by decide),
    by decide⟩

/-- C4, counterexample: "8:30" does NOT fail with a time-format error —
chrono's `%H:%M` parsing is lenient about zero padding (it accepts one or
two digits per numeric item), so "8:30" parses as the specific time
08:30. -/
theorem c4_time_parse_counterexample :
    parse_event_time ⟨2025, 12, 10⟩ "8:30".toList =
      .ok (.specific ⟨2025, 12, 10⟩ ⟨8, 30⟩) ∧
    parse_event_time ⟨2025, 12, 10⟩ "8:30".toList ≠ .error .timeFormat := by
  decide

/-- C4, amended: applied to the trimmed raw time field, "All Day" in any
letter case and the empty string yield an all-day `EventTime`; "08:30"
yields the specific time 08:30 on the given date; but zero padding is not
required, so "8:30" also succeeds (as 08:30); fields that do not parse as
a 24-hour time, such as "08:70" (minute out of range), "24:00", or
non-numeric text, fail with a time-format error. -/
theorem c4_time_parse_amended (d : NaiveDate) :
    parse_event_time d "All Day".toList = .ok (.allDay d) ∧
    parse_event_time d "ALL DAY".toList = .ok (.allDay d) ∧
    parse_event_time d "all day".toList = .ok (.allDay d) ∧
    parse_event_time d "".toList = .ok (.allDay d) ∧
    parse_event_time d "08:30".toList = .ok (.specific d ⟨8, 30⟩) ∧
    parse_event_time d "8:30".toList = .ok (.specific d ⟨8, 30⟩) ∧
    parse_event_time d "08:70".toList = .error .timeFormat ∧
    parse_event_time d "24:00".toList = .error .timeFormat ∧
    parse_event_time d "noon".toList = .error .timeFormat :=
  ⟨rfl, rfl, rfl, rfl, rfl, rfl, rfl, rfl, rfl⟩

/-- C8: the categories of every successfully parsed event are exactly the
comma-split pieces of the raw category field, each trimmed, with the
empty pieces dropped; the result is a sublist of (keeps the order of) the
trimmed pieces and contains no empty string; zero categories is valid. -/
theorem c8_categories (e : CalendarEventXml) (ev : CalendarEvent)
    (h : parse_event e = .ok ev) :
    ev.categories = ((splitOnChar ',' e.category).map trim).filter (fun s => !s.isEmpty) ∧
    ev.categories.Sublist ((splitOnChar ',' e.category).map trim) ∧
    ∀ c ∈ ev.categories, c ≠ [] := by
  obtain ⟨sd, ed, st, en, h1, h2, h3, h4, rfl⟩ := (parse_event_eq_ok e ev).mp h
  refine ⟨rfl, List.filter_sublist _, ?_⟩
  intro c hc
  have := (List.mem_filter.mp hc).2
  simpa using this

/-- C8, witness: the category field "A, B ,, C" parses to exactly
["A", "B", "C"] in that order. -/
theorem c8_categories_witness :
    ev8.categories =
      ((splitOnChar ',' rec8.category).map trim).filter (fun s => !s.isEmpty) ∧
    ev8.categories = ["A".toList, "B".toList, "C".toList] :=
  ⟨(c8_categories rec8 ev8 (by decide)).1, by decide⟩

/-! Order properties of the string comparison. -/

theorem strLe_refl (a : Str) : strLe a a = true := by
  induction a with
  | nil => rfl
  | cons c r ih => simp [strLe, ih]

theorem strLe_total (a b : Str) : strLe a b = true ∨ strLe b a = true := by
  induction a generalizing b with
  | nil => exact Or.inl rfl
  | cons c r ih =>
    cases b with
    | nil => exact Or.inr rfl
    | cons d s =>
      by_cases hcd : c = d
      · subst hcd
        simpa [strLe] using ih s
      · rcases lt_or_gt_of_ne hcd with h | h
        · left; simp [strLe, hcd, h]
        · right; simp [strLe, Ne.symm hcd, h]

theorem strLe_false_imp {a b : Str} (h : strLe a b = false) : strLe b a = true :=
  (strLe_total a b).resolve_left (by simp [h])

theorem strLe_antisymm {a b : Str} (h1 : strLe a b = true) (h2 : strLe b a = true) :
    a = b := by
  induction a generalizing b with
  | nil =>
    cases b with
    | nil => rfl
    | cons d s => simp [strLe] at h2
  | cons c r ih =>
    cases b with
    | nil => simp [strLe] at h1
    | cons d s =>
      by_cases hcd : c = d
      · subst hcd
        simp only [strLe, if_pos rfl] at h1 h2
        rw [ih h1 h2]
      · simp only [strLe, if_neg hcd, if_neg (Ne.symm hcd), decide_eq_true_eq] at h1 h2
        exact absurd h2 (not_lt.mpr (le_of_lt h1))

theorem strLe_trans {a b c : Str} (h1 : strLe a b = true) (h2 : strLe b c = true) :
    strLe a c = true := by
  induction a generalizing b c with
  | nil => rfl
  | cons x r ih =>
    cases b with
    | nil => simp [strLe] at h1
    | cons y s =>
      cases c with
      | nil => simp [strLe] at h2
      | cons z t =>
        by_cases hxy : x = y <;> by_cases hyz : y = z
        · subst hxy; subst hyz
          simp only [strLe, if_pos rfl] at h1 h2 ⊢
          exact ih h1 h2
        · subst hxy
          simp only [strLe, if_pos rfl] at h1
          simpa [strLe, hyz] using h2
        · subst hyz
          simp only [strLe, if_pos rfl] at h2
          simpa [strLe, hxy] using h1
        · simp only [strLe, if_neg hxy, decide_eq_true_eq] at h1
          simp only [strLe, if_neg hyz, decide_eq_true_eq] at h2
          have hxz : x < z := lt_trans h1 h2
          simp [strLe, ne_of_lt hxz, hxz]

/-! Generic facts about the stable insertion sort. -/

theorem mem_orderedInsert {le : α → α → Bool} {x a : α} {l : List α} :
    x ∈ orderedInsert le a l ↔ x = a ∨ x ∈ l := by
  induction l with
  | nil => simp [orderedInsert]
  | cons b m ih =>
    unfold orderedInsert
    by_cases h : le a b = true
    · rw [if_pos h]
      exact List.mem_cons
    · rw [if_neg h]
      simp only [List.mem_cons, ih]
      tauto

theorem orderedInsert_perm (le : α → α → Bool) (a : α) (l : List α) :
    (orderedInsert le a l).Perm (a :: l) := by
  induction l with
  | nil => exact List.Perm.refl _
  | cons b m ih =>
    unfold orderedInsert
    by_cases h : le a b = true
    · rw [if_pos h]
    · rw [if_neg h]
      exact (ih.cons b).trans (List.Perm.swap a b m)

theorem insertionSort_perm (le : α → α → Bool) (l : List α) :
    (insertionSort le l).Perm l := by
  induction l with
  | nil => exact List.Perm.refl _
  | cons a m ih =>
    exact (orderedInsert_perm le a (insertionSort le m)).trans (ih.cons a)

theorem pairwise_orderedInsert {le : α → α → Bool}
    (htrans : ∀ x y z, le x y = true → le y z = true → le x z = true)
    (htotal : ∀ x y, le x y = false → le y x = true)
    (a : α) {l : List α} (h : l.Pairwise (fun x y => le x y = true)) :
    (orderedInsert le a l).Pairwise (fun x y => le x y = true) := by
  induction l with
  | nil => simp [orderedInsert]
  | cons b m ih =>
    rw [List.pairwise_cons] at h
    unfold orderedInsert
    by_cases hab : le a b = true
    · rw [if_pos hab]
      refine List.Pairwise.cons ?_ (List.Pairwise.cons h.1 h.2)
      intro x hx
      rcases List.mem_cons.mp hx with rfl | hx
      · exact hab
      · exact htrans a b x hab (h.1 x hx)
    · rw [if_neg hab]
      refine List.Pairwise.cons ?_ (ih h.2)
      intro x hx
      rcases mem_orderedInsert.mp hx with hxa | hx
      · subst hxa
        exact htotal _ b (by simpa using hab)
      · exact h.1 x hx

theorem pairwise_insertionSort {le : α → α → Bool}
    (htrans : ∀ x y z, le x y = true → le y z = true → le x z = true)
    (htotal : ∀ x y, le x y = false → le y x = true)
    (l : List α) :
    (insertionSort le l).Pairwise (fun x y => le x y = true) := by
  induction l with
  | nil => exact List.Pairwise.nil
  | cons a m ih => exact pairwise_orderedInsert htrans htotal a ih

/-! Stability of the id sort and the effect of the dedup pass. -/

theorem leById_trans (x y z : CalendarEvent)
    (h1 : leById x y = true) (h2 : leById y z = true) : leById x z = true :=
  strLe_trans h1 h2

theorem leById_total (x y : CalendarEvent) (h : leById x y = false) :
    leById y x = true :=
  strLe_false_imp h

theorem orderedInsert_filter_eqkey (a : CalendarEvent) (m : List CalendarEvent) :
    (orderedInsert leById a m).filter (fun e => e.event_id == a.event_id) =
      a :: m.filter (fun e => e.event_id == a.event_id) := by
  induction m with
  | nil => simp [orderedInsert]
  | cons b l ih =>
    unfold orderedInsert
    by_cases h : leById a b = true
    · rw [if_pos h]
      simp [List.filter_cons]
    · rw [if_neg h]
      have hne : (b.event_id == a.event_id) = false := by
        rw [beq_eq_false_iff_ne]
        intro heq
        have : leById a b = true := by
          unfold leById; rw [heq]; exact strLe_refl _
        exact h this
      simp [List.filter_cons, hne, ih]

theorem orderedInsert_filter_nekey (a : CalendarEvent) (i : Str)
    (hne : a.event_id ≠ i) (m : List CalendarEvent) :
    (orderedInsert leById a m).filter (fun e => e.event_id == i) =
      m.filter (fun e => e.event_id == i) := by
  induction m with
  | nil => simp [orderedInsert, List.filter_cons, hne]
  | cons b l ih =>
    unfold orderedInsert
    by_cases h : leById a b = true
    · rw [if_pos h]
      simp [List.filter_cons, hne]
    · rw [if_neg h]
      simp [List.filter_cons, ih]

theorem insertionSort_filter_id (l : List CalendarEvent) (i : Str) :
    (insertionSort leById l).filter (fun e => e.event_id == i) =
      l.filter (fun e => e.event_id == i) := by
  induction l with
  | nil => rfl
  | cons a l ih =>
    show (orderedInsert leById a (insertionSort leById l)).filter _ = _
    by_cases h : a.event_id = i
    · subst h
      rw [orderedInsert_filter_eqkey, ih]
      simp [List.filter_cons]
    · rw [orderedInsert_filter_nekey a i h, ih]
      simp [List.filter_cons, h]

theorem mem_dedupAux {same : α → α → Bool} {x prev : α} {l : List α}
    (h : x ∈ dedupAux same prev l) : x ∈ l := by
  induction l generalizing prev with
  | nil => exact absurd h (List.not_mem_nil x)
  | cons b m ih =>
    unfold dedupAux at h
    by_cases hb : same b prev = true
    · rw [if_pos hb] at h
      exact List.mem_cons_of_mem b (ih h)
    · rw [if_neg hb] at h
      rcases List.mem_cons.mp h with rfl | h
      · exact List.mem_cons_self _ _
      · exact List.mem_cons_of_mem b (ih h)

theorem dedupAux_filter_nil (prev : CalendarEvent) (l : List CalendarEvent)
    (hs : (prev :: l).Pairwise (fun x y => leById x y = true)) :
    (dedupAux (fun a b => a.event_id == b.event_id) prev l).filter
      (fun e => e.event_id == prev.event_id) = [] := by
  induction l generalizing prev with
  | nil => rfl
  | cons b m ih =>
    rw [List.pairwise_cons] at hs
    unfold dedupAux
    by_cases hb : (b.event_id == prev.event_id) = true
    · rw [if_pos hb]
      exact ih prev (List.pairwise_cons.mpr
        ⟨fun x hx => hs.1 x (List.mem_cons_of_mem b hx), (List.pairwise_cons.mp hs.2).2⟩)
    · rw [if_neg hb]
      have hbne : b.event_id ≠ prev.event_id := by
        intro heq; exact hb (beq_iff_eq.mpr heq)
      rw [List.filter_cons_of_neg (by simpa using hbne)]
      rw [List.filter_eq_nil_iff]
      intro x hx
      have hxm : x ∈ m := mem_dedupAux hx
      have h1 : leById prev b = true := hs.1 b (List.mem_cons_self _ _)
      have h2 : leById b x = true := (List.pairwise_cons.mp hs.2).1 x hxm
      simp only [beq_iff_eq]
      intro heq
      have : leById b prev = true := by
        unfold leById at h2 ⊢; rw [← heq]; exact h2
      exact hbne (strLe_antisymm this h1)

theorem dedupAux_filter_ne (prev : CalendarEvent) (l : List CalendarEvent) (i : Str)
    (hs : (prev :: l).Pairwise (fun x y => leById x y = true))
    (hne : prev.event_id ≠ i) :
    (dedupAux (fun a b => a.event_id == b.event_id) prev l).filter
      (fun e => e.event_id == i) =
      (l.filter (fun e => e.event_id == i)).take 1 := by
  induction l generalizing prev with
  | nil => rfl
  | cons b m ih =>
    rw [List.pairwise_cons] at hs
    unfold dedupAux
    by_cases hb : (b.event_id == prev.event_id) = true
    · rw [if_pos hb]
      have hbne : b.event_id ≠ i := by
        rw [beq_iff_eq.mp hb]; exact hne
      rw [List.filter_cons_of_neg (by simpa using hbne)]
      exact ih prev (List.pairwise_cons.mpr
        ⟨fun x hx => hs.1 x (List.mem_cons_of_mem b hx), (List.pairwise_cons.mp hs.2).2⟩) hne
    · rw [if_neg hb]
      by_cases hbi : b.event_id = i
      · rw [List.filter_cons_of_pos (by simpa using hbi),
          List.filter_cons_of_pos (by simpa using hbi)]
        simp only [List.take_succ_cons, List.take_zero]
        subst hbi
        rw [dedupAux_filter_nil b m hs.2]
      · rw [List.filter_cons_of_neg (by simpa using hbi),
          List.filter_cons_of_neg (by simpa using hbi)]
        exact ih b hs.2 hbi

theorem dedup_filter_take (l : List CalendarEvent) (i : Str)
    (hs : l.Pairwise (fun x y => leById x y = true)) :
    (dedup_by (fun a b => a.event_id == b.event_id) l).filter
      (fun e => e.event_id == i) =
      (l.filter (fun e => e.event_id == i)).take 1 := by
  cases l with
  | nil => rfl
  | cons a m =>
    show (a :: dedupAux _ a m).filter _ = _
    by_cases hai : a.event_id = i
    · rw [List.filter_cons_of_pos (by simpa using hai),
        List.filter_cons_of_pos (by simpa using hai)]
      simp only [List.take_succ_cons, List.take_zero]
      subst hai
      rw [dedupAux_filter_nil a m hs]
    · rw [List.filter_cons_of_neg (by simpa using hai),
        List.filter_cons_of_neg (by simpa using hai)]
      exact dedupAux_filter_ne a m i hs hai

theorem filter_take_one_eq_find (p : α → Bool) (l : List α) :
    (l.filter p).take 1 = (l.find? p).toList := by
  induction l with
  | nil => rfl
  | cons a m ih =>
    by_cases h : p a = true
    · rw [List.filter_cons_of_pos h, List.find?_cons_of_pos _ h]
      simp
    · rw [List.filter_cons_of_neg (by simp [h]), List.find?_cons_of_neg _ (by simp [h])]
      exact ih

/-- C9: in the finalization of `fetch_events_recursive`, the events of the
final output carrying a given identifier are exactly the FIRST event with
that identifier in accumulation order — the stable sort by identifier
followed by the consecutive dedup keeps the earliest-accumulated
occurrence, so the retained copy is fully determined by arrival order. -/
theorem c9_dedup_keeps_first_occurrence (l : List CalendarEvent) (i : Str) :
    (finalize l).filter (fun e => e.event_id == i) =
      (l.find? (fun e => e.event_id == i)).toList := by
  unfold finalize
  have hsorted : (insertionSort leById l).Pairwise (fun x y => leById x y = true) :=
    pairwise_insertionSort leById_trans leById_total l
  have h1 := dedup_filter_take (insertionSort leById l) i hsorted
  rw [insertionSort_filter_id l i, filter_take_one_eq_find] at h1
  have hperm :
      ((insertionSort leByStart
          (dedup_by (fun a b => a.event_id == b.event_id)
            (insertionSort leById l))).filter (fun e => e.event_id == i)).Perm
        ((dedup_by (fun a b => a.event_id == b.event_id)
            (insertionSort leById l)).filter (fun e => e.event_id == i)) :=
    (insertionSort_perm leByStart _).filter _
  rw [h1] at hperm
  cases hfind : l.find? (fun e => e.event_id == i) with
  | none =>
    rw [hfind] at hperm
    exact List.Perm.eq_nil hperm
  | some a =>
    rw [hfind] at hperm
    exact List.perm_singleton.mp hperm

/-! The pagination loop. -/

theorem fetch_loop_eq_batches (feed : NaiveDate → List CalendarEvent)
    (end_date : NaiveDate) :
    ∀ (fuel : Nat) (cur : NaiveDate) (acc : List CalendarEvent),
      fetch_events_recursive feed end_date fuel cur acc =
        (fetchBatches feed end_date fuel cur).map
          (fun bs => finalize (acc ++ bs.flatten)) := by
  intro fuel
  induction fuel with
  | zero => intro cur acc; rfl
  | succ n ih =>
    intro cur acc
    unfold fetch_events_recursive fetchBatches
    by_cases he : (feed cur).isEmpty
    · simp [he]
    · rw [if_neg he, if_neg he]
      cases hl : (feed cur).getLast? with
      | none => rfl
      | some lastEv =>
        by_cases hge : dateGeb lastEv.start.date end_date
        · simp [hge]
        · simp [hge, ih, Option.map_map, Function.comp_def, List.append_assoc]

theorem dateKey_lt {a b : NaiveDate} (ha : dateValid a) (hb : dateValid b)
    (h : dateLtb a b = true) : dateKey a < dateKey b := by
  have h' : dateCmp a b = Ordering.lt := by
    revert h
    unfold dateLtb
    cases dateCmp a b <;> decide
  rw [dateCmp_eq_lt] at h'
  unfold dateValid at ha hb
  unfold dateKey
  rcases h' with h' | ⟨h1, h' | ⟨h2, h3⟩⟩ <;> omega

theorem fetchBatches_terminates (feed : NaiveDate → List CalendarEvent)
    (end_date : NaiveDate)
    (hne : ∀ d, feed d ≠ [])
    (hprog : ∀ d e, (feed d).getLast? = some e →
      dateLtb d e.start.date = true ∧ dateValid e.start.date)
    (hve : dateValid end_date) :
    ∀ (fuel : Nat) (cur : NaiveDate), dateValid cur →
      (dateKey end_date - dateKey cur).toNat < fuel →
      ∃ bs, fetchBatches feed end_date fuel cur = some bs := by
  intro fuel
  induction fuel with
  | zero => intro cur hv hlt; exact absurd hlt (Nat.not_lt_zero _)
  | succ n ih =>
    intro cur hv hlt
    unfold fetchBatches
    by_cases he : (feed cur).isEmpty
    · exact ⟨[], by rw [if_pos he]⟩
    · cases hl : (feed cur).getLast? with
      | none =>
        exact absurd (List.getLast?_eq_none_iff.mp hl) (hne cur)
      | some lastEv =>
        obtain ⟨hlt2, hvl⟩ := hprog cur lastEv hl
        by_cases hge : dateGeb lastEv.start.date end_date
        · exact ⟨[feed cur], by rw [if_neg he]; simp [hl, hge]⟩
        · have hlt3 : dateLtb lastEv.start.date end_date = true := by
            simp only [dateGeb, Bool.not_eq_true', Bool.not_eq_false] at hge
            exact hge
          have k1 : dateKey cur < dateKey lastEv.start.date := dateKey_lt hv hvl hlt2
          have k2 : dateKey lastEv.start.date < dateKey end_date := dateKey_lt hvl hve hlt3
          obtain ⟨bs, hbs⟩ := ih lastEv.start.date hvl (by omega)
          exact ⟨feed cur :: bs, by rw [if_neg he]; simp [hl, hge, hbs]⟩

/-- C6: for every feed — modelled as a function from the moving fetch
start date to the parsed batch — that always returns a non-empty batch
whose last event's start date is a valid date strictly after the queried
start date (so the last start date strictly increases per call and
eventually reaches or exceeds any end date), the pagination loop
terminates (some finite fuel suffices) and returns exactly
`finalize` — deduplicate by identifier, then sort by start time — of the
concatenation of all fetched batches. -/
theorem c6_pagination_terminates (feed : NaiveDate → List CalendarEvent)
    (start_date end_date : NaiveDate)
    (hne : ∀ d, feed d ≠ [])
    (hprog : ∀ d e, (feed d).getLast? = some e →
      dateLtb d e.start.date = true ∧ dateValid e.start.date)
    (hvs : dateValid start_date) (hve : dateValid end_date) :
    ∃ fuel bs,
      fetchBatches feed end_date fuel start_date = some bs ∧
      fetch_events_recursive feed end_date fuel start_date [] =
        some (finalize bs.flatten) := by
  obtain ⟨bs, hbs⟩ := fetchBatches_terminates feed end_date hne hprog hve
    ((dateKey end_date - dateKey start_date).toNat + 1) start_date hvs (by omega)
  refine ⟨_, bs, hbs, ?_⟩
  rw [fetch_loop_eq_batches, hbs]
  simp

/-- C6, witness: the pagination loop terminates on a concrete well-behaved
feed. -/
theorem c6_pagination_terminates_witness :
    ∃ fuel bs,
      fetchBatches wFeed ⟨2026, 1, 1⟩ fuel ⟨2025, 6, 1⟩ = some bs ∧
      fetch_events_recursive wFeed ⟨2026, 1, 1⟩ fuel ⟨2025, 6, 1⟩ [] =
        some (finalize bs.flatten) := by
  apply c6_pagination_terminates
  · intro d; simp [wFeed]
  · intro d e h
    simp only [wFeed, List.getLast?_singleton, Option.some.injEq] at h
    subst h
    constructor
    · have hy : d.year < d.year + 1 := by omega
      simp [wEvent, EventTime.date, dateLtb, dateCmp, intCmp, hy, Ordering.then]
      rfl
    · simp [wEvent, EventTime.date, dateValid]
  · decide
  · decide

/-- C7: if the first fetch of an invocation parses to zero events, the
loop stops at once: the result is the empty sequence (one unit of fuel
suffices, i.e. no recursive call is made) and no batch is recorded. -/
theorem c7_empty_first_fetch (feed : NaiveDate → List CalendarEvent)
    (start_date end_date : NaiveDate) (fuel : Nat)
    (h : feed start_date = []) :
    fetch_events_recursive feed end_date (fuel + 1) start_date [] = some [] ∧
    fetchBatches feed end_date (fuel + 1) start_date = some [] := by
  have he : (feed start_date).isEmpty = true := by rw [h]; rfl
  constructor
  · unfold fetch_events_recursive
    rw [if_pos he]
    rfl
  · unfold fetchBatches
    rw [if_pos he]

/-- C7, witness: the always-empty feed returns the empty result with one
unit of fuel. -/
theorem c7_empty_first_fetch_witness :
    fetch_events_recursive (fun _ => []) ⟨2025, 12, 31⟩ 1 ⟨2025, 1, 1⟩ [] = some [] ∧
    fetchBatches (fun _ => []) ⟨2025, 12, 31⟩ 1 ⟨2025, 1, 1⟩ = some [] :=
  c7_empty_first_fetch (fun _ => []) ⟨2025, 1, 1⟩ ⟨2025, 12, 31⟩ 0 rfl

-- quick sanity checks of the basic machinery
example : trim (' ' :: 'a' :: 'b' :: [' ']) = ['a', 'b'] := by decide
example : splitOnChar '/' "10/12/2025".toList =
    ["10".toList, "12".toList, "2025".toList] := by decide
example : parseU32 "32".toList = some 32 := by decide
example : from_ymd_opt 2025 12 10 = some ⟨2025, 12, 10⟩ := by decide
example : from_ymd_opt 2025 13 10 = none := by decide
example : from_ymd_opt 2025 1 32 = none := by decide
example : from_ymd_opt 2024 2 29 = some ⟨2024, 2, 29⟩ := by decide
example : from_ymd_opt 2025 2 29 = none := by decide
example : addHourWrap ⟨23, 30⟩ = ⟨0, 30⟩ := by decide
example : eqIgnoreAsciiCase "All Day".toList "all day".toList = true := by decide
example : parse_date "10/12/2025".toList = .ok ⟨2025, 12, 10⟩ := by decide
example : parse_date "32/01/2025".toList = .error .dateFormat := by decide
example : parse_date "10/13/2025".toList = .error .dateFormat := by decide
example : parse_date "10-12-2025".toList = .error .dateFormat := by decide
example : parse_event_time ⟨2025, 12, 10⟩ "All Day".toList = .ok (.allDay ⟨2025, 12, 10⟩) := by decide
example : parse_event_time ⟨2025, 12, 10⟩ "".toList = .ok (.allDay ⟨2025, 12, 10⟩) := by decide
example : parse_event_time ⟨2025, 12, 10⟩ "08:30".toList =
    .ok (.specific ⟨2025, 12, 10⟩ ⟨8, 30⟩) := by decide
example : parse_event_time ⟨2025, 12, 10⟩ "8:30".toList =
    .ok (.specific ⟨2025, 12, 10⟩ ⟨8, 30⟩) := by decide
example : parse_event_time ⟨2025, 12, 10⟩ "08:70".toList = .error .timeFormat := by decide
example : parse_event_time ⟨2025, 12, 10⟩ "24:00".toList = .error .timeFormat := by decide
example : parse_event_time ⟨2025, 12, 10⟩ "08:30:00".toList = .error .timeFormat := by decide
example :
    (((splitOnChar ',' "A, B ,, C".toList).map trim).filter (fun s => !s.isEmpty)) =
      ["A".toList, "B".toList, "C".toList] := by decide
